import Mathlib

/-!
Verification of the nutrition aggregation and validation core of the
repository (src/lib/aggregation.ts, src/lib/llm.ts, src/lib/types.ts).
JavaScript numbers are modelled as rationals; untrusted parsed JSON is
modelled by an explicit inductive value type.
-/

/-- A nutritional range triple, from the interface NutritionalRange. -/
structure NutritionalRange where
  min : ℚ
  mid : ℚ
  max : ℚ
deriving DecidableEq

/-- Confidence levels, from the union type Confidence. -/
inductive Confidence where
  | low
  | medium
  | high
deriving DecidableEq

/-- A parsed food item, from the interface EntryItem. -/
structure EntryItem where
  id : String
  entry_id : String
  name : String
  calories : NutritionalRange
  protein : NutritionalRange
  carbs : NutritionalRange
  fat : NutritionalRange
  fiber : NutritionalRange
  confidence : Confidence
  created_at : String
deriving DecidableEq

/-- Aggregated totals, from the interface NutritionalTotals. -/
structure NutritionalTotals where
  calories : NutritionalRange
  protein : NutritionalRange
  carbs : NutritionalRange
  fat : NutritionalRange
  fiber : NutritionalRange
deriving DecidableEq

/-- A daily summary, from the interface DailySummary (the date string and
entry count are carried but never used by the weekly computation). -/
structure DailySummary where
  date : String
  totals : NutritionalTotals
  entry_count : Nat
deriving DecidableEq

/-- The five nutrient field labels, used to state componentwise facts. -/
inductive NutrientField where
  | calories
  | protein
  | carbs
  | fat
  | fiber
deriving DecidableEq

/-- The three components of a range. -/
inductive RangeComp where
  | cmin
  | cmid
  | cmax
deriving DecidableEq

/-- Projection of a totals record at a nutrient field label. -/
def NutritionalTotals.get (t : NutritionalTotals) : NutrientField → NutritionalRange
  | .calories => t.calories
  | .protein => t.protein
  | .carbs => t.carbs
  | .fat => t.fat
  | .fiber => t.fiber

/-- Projection of an item at a nutrient field label. -/
def EntryItem.getRange (i : EntryItem) : NutrientField → NutritionalRange
  | .calories => i.calories
  | .protein => i.protein
  | .carbs => i.carbs
  | .fat => i.fat
  | .fiber => i.fiber

/-- Projection of a range at a component label. -/
def NutritionalRange.comp (r : NutritionalRange) : RangeComp → ℚ
  | .cmin => r.min
  | .cmid => r.mid
  | .cmax => r.max

/-- emptyTotals from aggregation.ts. -/
def emptyTotals : NutritionalTotals :=
  { calories := { min := 0, mid := 0, max := 0 }
    protein := { min := 0, mid := 0, max := 0 }
    carbs := { min := 0, mid := 0, max := 0 }
    fat := { min := 0, mid := 0, max := 0 }
    fiber := { min := 0, mid := 0, max := 0 } }

/-- addRanges from aggregation.ts. -/
def addRanges (a b : NutritionalRange) : NutritionalRange :=
  { min := a.min + b.min, mid := a.mid + b.mid, max := a.max + b.max }

/-- The reduce step of aggregateItems. -/
def aggStep (totals : NutritionalTotals) (item : EntryItem) : NutritionalTotals :=
  { calories := addRanges totals.calories item.calories
    protein := addRanges totals.protein item.protein
    carbs := addRanges totals.carbs item.carbs
    fat := addRanges totals.fat item.fat
    fiber := addRanges totals.fiber item.fiber }

/-- aggregateItems from aggregation.ts: early return of emptyTotals on the
empty list, otherwise a left fold of the componentwise addition. -/
def aggregateItems (items : List EntryItem) : NutritionalTotals :=
  if items.length = 0 then emptyTotals
  else items.foldl aggStep emptyTotals

/-- The reduce step of aggregateTotals. -/
def aggTotalsStep (acc totals : NutritionalTotals) : NutritionalTotals :=
  { calories := addRanges acc.calories totals.calories
    protein := addRanges acc.protein totals.protein
    carbs := addRanges acc.carbs totals.carbs
    fat := addRanges acc.fat totals.fat
    fiber := addRanges acc.fiber totals.fiber }

/-- aggregateTotals from aggregation.ts. -/
def aggregateTotals (totalsList : List NutritionalTotals) : NutritionalTotals :=
  if totalsList.length = 0 then emptyTotals
  else totalsList.foldl aggTotalsStep emptyTotals

/-- aggregateConfidence from aggregation.ts, polymorphic over any record
type carrying a confidence field, as in the TypeScript signature. -/
def aggregateConfidence {α : Type} (conf : α → Confidence) (items : List α) : Confidence :=
  if items.length = 0 then .high
  else
    let hasLow := items.any fun i => conf i == Confidence.low
    let hasMedium := items.any fun i => conf i == Confidence.medium
    if hasLow then .low
    else if hasMedium then .medium
    else .high

/-- validateRange from aggregation.ts. -/
def validateRange (range : NutritionalRange) : Bool :=
  decide (range.min ≤ range.mid) && decide (range.mid ≤ range.max) && decide (range.min ≥ 0)

/-- validateTotals from aggregation.ts. -/
def validateTotals (totals : NutritionalTotals) : Bool :=
  validateRange totals.calories &&
  validateRange totals.protein &&
  validateRange totals.carbs &&
  validateRange totals.fat &&
  validateRange totals.fiber

/-- The pattern days.reduce of computeWeeklyAverage: a left fold summing a
projection of each day, starting from zero. -/
def sumBy (days : List DailySummary) (f : DailySummary → ℚ) : ℚ :=
  days.foldl (fun s d => s + f d) 0

/-- JavaScript Math.round on a rational: round half toward positive
infinity, which is the floor of the value plus one half. -/
def jsRound (x : ℚ) : ℚ :=
  ((⌊x + 1/2⌋ : ℤ) : ℚ)

/-- JavaScript Math.min spread over a list; the empty case never occurs in
computeWeeklyAverage because the zero-length branch returns earlier. -/
def jsMinList : List ℚ → ℚ
  | [] => 0
  | x :: xs => xs.foldl min x

/-- JavaScript Math.max spread over a list; the empty case never occurs in
computeWeeklyAverage because the zero-length branch returns earlier. -/
def jsMaxList : List ℚ → ℚ
  | [] => 0
  | x :: xs => xs.foldl max x

/-- A min and max pair, one per nutrient in the weekly daily ranges. -/
structure MinMax where
  min : ℚ
  max : ℚ
deriving DecidableEq

/-- The daily ranges record returned by computeWeeklyAverage. -/
structure DailyRanges where
  calories : MinMax
  protein : MinMax
  carbs : MinMax
  fat : MinMax
  fiber : MinMax
deriving DecidableEq

/-- Projection of a daily ranges record at a nutrient field label. -/
def DailyRanges.get (r : DailyRanges) : NutrientField → MinMax
  | .calories => r.calories
  | .protein => r.protein
  | .carbs => r.carbs
  | .fat => r.fat
  | .fiber => r.fiber

/-- The result shape of computeWeeklyAverage. -/
structure WeeklyAverage where
  averages : NutritionalTotals
  daily_ranges : DailyRanges
deriving DecidableEq

/-- The all-zero daily ranges returned for an empty week. -/
def zeroDailyRanges : DailyRanges :=
  { calories := { min := 0, max := 0 }
    protein := { min := 0, max := 0 }
    carbs := { min := 0, max := 0 }
    fat := { min := 0, max := 0 }
    fiber := { min := 0, max := 0 } }

/-- computeWeeklyAverage from aggregation.ts: averages are the rounded mean
of each component over the days, daily ranges are the extremes of the daily
mid values. -/
def computeWeeklyAverage (days : List DailySummary) : WeeklyAverage :=
  let n := days.length
  if n = 0 then
    { averages := emptyTotals, daily_ranges := zeroDailyRanges }
  else
    { averages :=
        { calories :=
            { min := jsRound (sumBy days (fun d => d.totals.calories.min) / n)
              mid := jsRound (sumBy days (fun d => d.totals.calories.mid) / n)
              max := jsRound (sumBy days (fun d => d.totals.calories.max) / n) }
          protein :=
            { min := jsRound (sumBy days (fun d => d.totals.protein.min) / n)
              mid := jsRound (sumBy days (fun d => d.totals.protein.mid) / n)
              max := jsRound (sumBy days (fun d => d.totals.protein.max) / n) }
          carbs :=
            { min := jsRound (sumBy days (fun d => d.totals.carbs.min) / n)
              mid := jsRound (sumBy days (fun d => d.totals.carbs.mid) / n)
              max := jsRound (sumBy days (fun d => d.totals.carbs.max) / n) }
          fat :=
            { min := jsRound (sumBy days (fun d => d.totals.fat.min) / n)
              mid := jsRound (sumBy days (fun d => d.totals.fat.mid) / n)
              max := jsRound (sumBy days (fun d => d.totals.fat.max) / n) }
          fiber :=
            { min := jsRound (sumBy days (fun d => d.totals.fiber.min) / n)
              mid := jsRound (sumBy days (fun d => d.totals.fiber.mid) / n)
              max := jsRound (sumBy days (fun d => d.totals.fiber.max) / n) } }
      daily_ranges :=
        { calories :=
            { min := jsMinList (days.map fun d => d.totals.calories.mid)
              max := jsMaxList (days.map fun d => d.totals.calories.mid) }
          protein :=
            { min := jsMinList (days.map fun d => d.totals.protein.mid)
              max := jsMaxList (days.map fun d => d.totals.protein.mid) }
          carbs :=
            { min := jsMinList (days.map fun d => d.totals.carbs.mid)
              max := jsMaxList (days.map fun d => d.totals.carbs.mid) }
          fat :=
            { min := jsMinList (days.map fun d => d.totals.fat.mid)
              max := jsMaxList (days.map fun d => d.totals.fat.mid) }
          fiber :=
            { min := jsMinList (days.map fun d => d.totals.fiber.mid)
              max := jsMaxList (days.map fun d => d.totals.fiber.mid) } } }

/-!
The response validator of llm.ts works on untrusted values produced by
JSON.parse; those values are modelled by the inductive type Json below.
Property access on a non-object yields no value, matching undefined.
-/

/-- A parsed JSON value, as produced by JSON.parse. -/
inductive Json where
  | null
  | bool (b : Bool)
  | num (q : ℚ)
  | str (s : String)
  | arr (elems : List Json)
  | obj (fields : List (String × Json))

/-- Property access: obj.k is the value stored at key k of an object, and
undefined (none) on every other value. -/
def Json.getField : Json → String → Option Json
  | .obj fields, k => (fields.find? fun p => p.1 == k).map fun p => p.2
  | _, _ => none

/-- The JavaScript test typeof v === 'object' combined with v !== null:
true exactly on objects and arrays. -/
def isObjectTyped : Json → Bool
  | .obj _ => true
  | .arr _ => true
  | _ => false

/-- JavaScript truthiness of a JSON value. -/
def isTruthy : Json → Bool
  | .null => false
  | .bool b => b
  | .num q => q != 0
  | .str s => s != ""
  | .arr _ => true
  | .obj _ => true

/-- The check typeof i.name === 'string' of isValidParsedItem. -/
def nameIsString (item : Json) : Bool :=
  match item.getField "name" with
  | some (.str _) => true
  | _ => false

/-- The check that i.confidence is included in the array of the three
confidence literals. -/
def confidenceOk (item : Json) : Bool :=
  match item.getField "confidence" with
  | some (.str s) => s == "low" || s == "medium" || s == "high"
  | _ => false

/-- The check typeof range.k === 'number' for one component key. -/
def numField (range : Json) (k : String) : Bool :=
  match range.getField k with
  | some (.num _) => true
  | _ => false

/-- The rangeFields array of isValidParsedItem. -/
def rangeFields : List String := ["calories", "protein", "carbs", "fat", "fiber"]

/-- One iteration of the loop of isValidParsedItem: the field must be
present and truthy, typed object, with numeric min, mid and max. -/
def rangeFieldOk (item : Json) (f : String) : Bool :=
  match item.getField f with
  | none => false
  | some range =>
      isTruthy range && isObjectTyped range &&
      numField range "min" && numField range "mid" && numField range "max"

/-- isValidParsedItem from llm.ts. -/
def isValidParsedItem (item : Json) : Bool :=
  isObjectTyped item &&
  nameIsString item &&
  confidenceOk item &&
  rangeFields.all fun f => rangeFieldOk item f

/-- The validation loop of parseFoodWithLLM over the items array: the first
invalid element aborts with an error, otherwise all elements are collected
in order. -/
def validateItems : List Json → Except String (List Json)
  | [] => .ok []
  | item :: rest =>
    if isValidParsedItem item then
      match validateItems rest with
      | .ok tail => .ok (item :: tail)
      | .error e => .error e
    else .error "LLM response contains invalid item"

/-- The structural validation of parseFoodWithLLM after JSON.parse: the
payload must be object-typed and non-null, carry an items array, and every
element of that array must pass isValidParsedItem. -/
def validatePayload (parsed : Json) : Except String (List Json) :=
  if isObjectTyped parsed then
    match parsed.getField "items" with
    | some (Json.arr items) => validateItems items
    | _ => .error "LLM response missing items array"
  else .error "LLM response is not an object"

/-- Rank of a confidence level under the ordering low below medium below
high. -/
def Confidence.toNat : Confidence → Nat
  | .low => 0
  | .medium => 1
  | .high => 2

/-!  Helper lemmas about the folds. -/

lemma foldl_add_eq {β : Type} (f : β → ℚ) :
    ∀ (l : List β) (a : ℚ), l.foldl (fun s d => s + f d) a = a + (l.map f).sum := by
  intro l
  induction l with
  | nil => intro a; simp
  | cons x xs ih => intro a; simp [List.foldl_cons, ih]; ring

lemma sumBy_eq_sum (days : List DailySummary) (f : DailySummary → ℚ) :
    sumBy days f = (days.map f).sum := by
  simpa using foldl_add_eq f days 0

lemma emptyTotals_comp (f : NutrientField) (c : RangeComp) :
    (emptyTotals.get f).comp c = 0 := by
  cases f <;> cases c <;> rfl

lemma aggStep_comp (acc : NutritionalTotals) (i : EntryItem) (f : NutrientField)
    (c : RangeComp) :
    ((aggStep acc i).get f).comp c = (acc.get f).comp c + (i.getRange f).comp c := by
  cases f <;> cases c <;> rfl

lemma foldl_aggStep_comp :
    ∀ (items : List EntryItem) (acc : NutritionalTotals) (f : NutrientField) (c : RangeComp),
      ((items.foldl aggStep acc).get f).comp c
        = (acc.get f).comp c + (items.map fun i => (i.getRange f).comp c).sum := by
  intro items
  induction items with
  | nil => intro acc f c; simp
  | cons x xs ih =>
      intro acc f c
      simp only [List.foldl_cons, List.map_cons, List.sum_cons, ih, aggStep_comp]
      ring

lemma aggregateItems_comp (items : List EntryItem) (f : NutrientField) (c : RangeComp) :
    ((aggregateItems items).get f).comp c
      = (items.map fun i => (i.getRange f).comp c).sum := by
  unfold aggregateItems
  by_cases h : items.length = 0
  · rw [List.length_eq_zero] at h
    subst h
    simp [emptyTotals_comp]
  · rw [if_neg h, foldl_aggStep_comp, emptyTotals_comp, zero_add]

lemma totals_ext {a b : NutritionalTotals}
    (h : ∀ f c, (a.get f).comp c = (b.get f).comp c) : a = b := by
  obtain ⟨⟨_, _, _⟩, ⟨_, _, _⟩, ⟨_, _, _⟩, ⟨_, _, _⟩, ⟨_, _, _⟩⟩ := a
  obtain ⟨⟨_, _, _⟩, ⟨_, _, _⟩, ⟨_, _, _⟩, ⟨_, _, _⟩, ⟨_, _, _⟩⟩ := b
  have h1 := fun c => h .calories c
  have h2 := fun c => h .protein c
  have h3 := fun c => h .carbs c
  have h4 := fun c => h .fat c
  have h5 := fun c => h .fiber c
  simp only [NutritionalTotals.get, NutritionalRange.comp] at h1 h2 h3 h4 h5
  have e1 := h1 .cmin; have e2 := h1 .cmid; have e3 := h1 .cmax
  have f1 := h2 .cmin; have f2 := h2 .cmid; have f3 := h2 .cmax
  have g1 := h3 .cmin; have g2 := h3 .cmid; have g3 := h3 .cmax
  have i1 := h4 .cmin; have i2 := h4 .cmid; have i3 := h4 .cmax
  have j1 := h5 .cmin; have j2 := h5 .cmid; have j3 := h5 .cmax
  simp_all

/-- C2: aggregateItems is the componentwise sum over the list, the empty
list gives the all-zero totals, and a singleton list returns the five
ranges of its item unchanged. -/
theorem aggregateItems_componentwise_sum :
    (∀ (items : List EntryItem) (f : NutrientField) (c : RangeComp),
        ((aggregateItems items).get f).comp c
          = (items.map fun i => (i.getRange f).comp c).sum) ∧
    aggregateItems [] = emptyTotals ∧
    (∀ i : EntryItem,
        aggregateItems [i] = ⟨i.calories, i.protein, i.carbs, i.fat, i.fiber⟩) := by
  refine ⟨aggregateItems_comp, rfl, ?_⟩
  intro i
  apply totals_ext
  intro f c
  rw [aggregateItems_comp]
  cases f <;> cases c <;> simp [EntryItem.getRange, NutritionalTotals.get,
    NutritionalRange.comp]

/-- C3: aggregateConfidence returns the worst member confidence under the
ordering low below medium below high, and high on the empty list. -/
theorem aggregateConfidence_worst {α : Type} (conf : α → Confidence) (items : List α) :
    (items = [] → aggregateConfidence conf items = Confidence.high) ∧
    (∀ i ∈ items, (aggregateConfidence conf items).toNat ≤ (conf i).toNat) ∧
    (items ≠ [] → ∃ i ∈ items, conf i = aggregateConfidence conf items) := by
  by_cases hnil : items = []
  · subst hnil
    exact ⟨fun _ => rfl, by simp, by simp⟩
  · have hlen : ¬ items.length = 0 := by
      simpa [List.length_eq_zero] using hnil
    refine ⟨fun h => absurd h hnil, ?_, ?_⟩
    · intro i hi
      unfold aggregateConfidence
      rw [if_neg hlen]
      by_cases hL : items.any fun j => conf j == Confidence.low
      · simp only [hL, if_true]
        exact Nat.zero_le _
      · by_cases hM : items.any fun j => conf j == Confidence.medium
        · simp only [hL, hM, if_false, if_true]
          have : conf i ≠ Confidence.low := by
            intro hc
            apply hL
            rw [List.any_eq_true]
            exact ⟨i, hi, by simp [hc]⟩
          cases hc : conf i with
          | low => exact absurd hc this
          | medium => simp [Confidence.toNat]
          | high => simp [Confidence.toNat]
        · simp only [hL, hM, if_false]
          have hnl : conf i ≠ Confidence.low := by
            intro hc
            apply hL
            rw [List.any_eq_true]
            exact ⟨i, hi, by simp [hc]⟩
          have hnm : conf i ≠ Confidence.medium := by
            intro hc
            apply hM
            rw [List.any_eq_true]
            exact ⟨i, hi, by simp [hc]⟩
          cases hc : conf i with
          | low => exact absurd hc hnl
          | medium => exact absurd hc hnm
          | high => simp [Confidence.toNat]
    · intro _
      unfold aggregateConfidence
      rw [if_neg hlen]
      by_cases hL : items.any fun j => conf j == Confidence.low
      · obtain ⟨i, hi, hc⟩ := List.any_eq_true.mp hL
        simp only [beq_iff_eq] at hc
        refine ⟨i, hi, ?_⟩
        rw [if_pos hL, hc]
      · by_cases hM : items.any fun j => conf j == Confidence.medium
        · obtain ⟨i, hi, hc⟩ := List.any_eq_true.mp hM
          simp only [beq_iff_eq] at hc
          refine ⟨i, hi, ?_⟩
          rw [if_neg hL, if_pos hM, hc]
        · obtain ⟨i, hi⟩ : ∃ i, i ∈ items := by
            cases items with
            | nil => exact absurd rfl hnil
            | cons x xs => exact ⟨x, by simp⟩
          have hnl : conf i ≠ Confidence.low := by
            intro hc
            exact hL (by rw [List.any_eq_true]; exact ⟨i, hi, by simp [hc]⟩)
          have hnm : conf i ≠ Confidence.medium := by
            intro hc
            exact hM (by rw [List.any_eq_true]; exact ⟨i, hi, by simp [hc]⟩)
          refine ⟨i, hi, ?_⟩
          simp only [hL, hM, if_false]
          cases hc : conf i with
          | low => exact absurd hc hnl
          | medium => exact absurd hc hnm
          | high => rfl

/-- Witness for C3 at the empty list and at a concrete two-element list. -/
theorem aggregateConfidence_worst_witness :
    aggregateConfidence id ([] : List Confidence) = Confidence.high ∧
    (aggregateConfidence id [Confidence.medium, Confidence.low]).toNat
      ≤ Confidence.low.toNat ∧
    (∃ i ∈ [Confidence.medium, Confidence.low],
        id i = aggregateConfidence id [Confidence.medium, Confidence.low]) :=
  ⟨(aggregateConfidence_worst id []).1 rfl,
   (aggregateConfidence_worst id [Confidence.medium, Confidence.low]).2.1
     Confidence.low (by simp),
   (aggregateConfidence_worst id [Confidence.medium, Confidence.low]).2.2
     (by simp)⟩

lemma validateRange_iff (r : NutritionalRange) :
    validateRange r = true ↔ r.min ≤ r.mid ∧ r.mid ≤ r.max ∧ 0 ≤ r.min := by
  simp [validateRange, and_assoc]

lemma validateTotals_iff (t : NutritionalTotals) :
    validateTotals t = true ↔ ∀ f, validateRange (t.get f) = true := by
  unfold validateTotals
  simp only [Bool.and_eq_true]
  constructor
  · rintro ⟨⟨⟨⟨h1, h2⟩, h3⟩, h4⟩, h5⟩ f
    cases f <;> assumption
  · intro h
    exact ⟨⟨⟨⟨h .calories, h .protein⟩, h .carbs⟩, h .fat⟩, h .fiber⟩

/-- C7: summing items whose five ranges are all valid yields valid totals;
in particular the empty aggregation is valid. -/
theorem aggregateItems_preserves_validity (items : List EntryItem)
    (h : ∀ i ∈ items, ∀ f, validateRange (i.getRange f) = true) :
    validateTotals (aggregateItems items) = true := by
  rw [validateTotals_iff]
  intro f
  rw [validateRange_iff]
  have hmin := aggregateItems_comp items f .cmin
  have hmid := aggregateItems_comp items f .cmid
  have hmax := aggregateItems_comp items f .cmax
  simp only [NutritionalRange.comp] at hmin hmid hmax
  refine ⟨?_, ?_, ?_⟩
  · rw [hmin, hmid]
    apply List.sum_le_sum
    intro i hi
    exact ((validateRange_iff _).mp (h i hi f)).1
  · rw [hmid, hmax]
    apply List.sum_le_sum
    intro i hi
    exact ((validateRange_iff _).mp (h i hi f)).2.1
  · rw [hmin]
    apply List.sum_nonneg
    intro x hx
    obtain ⟨i, hi, rfl⟩ := List.mem_map.mp hx
    exact ((validateRange_iff _).mp (h i hi f)).2.2

/-- Witness for C7: the empty aggregation satisfies the totals invariant. -/
theorem aggregateItems_preserves_validity_witness :
    validateTotals (aggregateItems []) = true :=
  aggregateItems_preserves_validity [] (by simp)

lemma aggTotalsStep_comp (acc t : NutritionalTotals) (f : NutrientField) (c : RangeComp) :
    ((aggTotalsStep acc t).get f).comp c = (acc.get f).comp c + (t.get f).comp c := by
  cases f <;> cases c <;> rfl

lemma foldl_aggTotals_eq_foldl_aggStep (mk : NutritionalTotals → EntryItem)
    (hmk : ∀ t f, (mk t).getRange f = t.get f) :
    ∀ (l : List NutritionalTotals) (acc : NutritionalTotals),
      l.foldl aggTotalsStep acc = (l.map mk).foldl aggStep acc := by
  intro l
  induction l with
  | nil => intro acc; rfl
  | cons x xs ih =>
      intro acc
      have hstep : aggTotalsStep acc x = aggStep acc (mk x) := by
        apply totals_ext
        intro f c
        rw [aggTotalsStep_comp, aggStep_comp, hmk]
      simp only [List.foldl_cons, List.map_cons, hstep, ih]

/-- C8: a totals record aggregates exactly like a single item carrying the
same five ranges, so aggregateTotals and aggregateItems compute the same
fold. -/
theorem aggregateTotals_eq_aggregateItems (l : List NutritionalTotals)
    (mk : NutritionalTotals → EntryItem)
    (hmk : ∀ t f, (mk t).getRange f = t.get f) :
    aggregateTotals l = aggregateItems (l.map mk) := by
  unfold aggregateTotals aggregateItems
  rw [List.length_map]
  by_cases h : l.length = 0
  · rw [if_pos h, if_pos h]
  · rw [if_neg h, if_neg h, foldl_aggTotals_eq_foldl_aggStep mk hmk]

/-- A concrete totals record used by witnesses. -/
def sampleTotals : NutritionalTotals :=
  { calories := ⟨90, 105, 120⟩
    protein := ⟨1, 1, 2⟩
    carbs := ⟨23, 27, 31⟩
    fat := ⟨0, 0, 1⟩
    fiber := ⟨2, 3, 4⟩ }

/-- A concrete wrapping of totals into an item, used by witnesses. -/
def mkItemFromTotals (t : NutritionalTotals) : EntryItem :=
  { id := "", entry_id := "", name := "", calories := t.calories
    protein := t.protein, carbs := t.carbs, fat := t.fat, fiber := t.fiber
    confidence := .high, created_at := "" }

/-- Witness for C8 at a concrete one-element list. -/
theorem aggregateTotals_eq_aggregateItems_witness :
    aggregateTotals [sampleTotals]
      = aggregateItems ([sampleTotals].map mkItemFromTotals) :=
  aggregateTotals_eq_aggregateItems [sampleTotals] mkItemFromTotals
    (fun t f => by cases f <;> rfl)

lemma foldl_aggStep_congr :
    ∀ {l1 l2 : List EntryItem},
      List.Forall₂ (fun a b => ∀ f, a.getRange f = b.getRange f) l1 l2 →
      ∀ acc : NutritionalTotals, l1.foldl aggStep acc = l2.foldl aggStep acc := by
  intro l1 l2 h
  induction h with
  | nil => intro acc; rfl
  | cons hab htail ih =>
      rename_i a b as bs
      intro acc
      have hstep : aggStep acc a = aggStep acc b := by
        apply totals_ext
        intro f c
        rw [aggStep_comp, aggStep_comp, hab f]
      simp only [List.foldl_cons, hstep, ih]

/-- C10: aggregateItems reads only the five nutrient ranges; two lists that
agree pointwise on all five ranges yield identical totals whatever their
identifiers, names, confidences or timestamps. -/
theorem aggregateItems_only_ranges (l1 l2 : List EntryItem)
    (h : List.Forall₂ (fun a b => ∀ f, a.getRange f = b.getRange f) l1 l2) :
    aggregateItems l1 = aggregateItems l2 := by
  unfold aggregateItems
  rw [h.length_eq]
  by_cases hl : l2.length = 0
  · rw [if_pos hl, if_pos hl]
  · rw [if_neg hl, if_neg hl, foldl_aggStep_congr h]

/-- A concrete item used by witnesses. -/
def sampleItemA : EntryItem :=
  { id := "1", entry_id := "e1", name := "banana", calories := ⟨90, 105, 120⟩
    protein := ⟨1, 1, 2⟩, carbs := ⟨23, 27, 31⟩, fat := ⟨0, 0, 1⟩
    fiber := ⟨2, 3, 4⟩, confidence := .high, created_at := "t1" }

/-- The same ranges as sampleItemA under different metadata. -/
def sampleItemB : EntryItem :=
  { id := "2", entry_id := "e2", name := "plantain", calories := ⟨90, 105, 120⟩
    protein := ⟨1, 1, 2⟩, carbs := ⟨23, 27, 31⟩, fat := ⟨0, 0, 1⟩
    fiber := ⟨2, 3, 4⟩, confidence := .low, created_at := "t2" }

/-- Witness for C10 at two concrete singleton lists differing only in
metadata. -/
theorem aggregateItems_only_ranges_witness :
    aggregateItems [sampleItemA] = aggregateItems [sampleItemB] :=
  aggregateItems_only_ranges [sampleItemA] [sampleItemB]
    (List.Forall₂.cons (fun f => by cases f <;> rfl) List.Forall₂.nil)

/-!  Lemmas about the min and max folds of the weekly computation. -/

lemma foldl_min_le_init : ∀ (xs : List ℚ) (a : ℚ), xs.foldl min a ≤ a := by
  intro xs
  induction xs with
  | nil => intro a; exact le_refl a
  | cons x xs ih =>
      intro a
      calc (x :: xs).foldl min a = xs.foldl min (min a x) := rfl
        _ ≤ min a x := ih _
        _ ≤ a := min_le_left _ _

lemma foldl_min_le_mem : ∀ (xs : List ℚ) (a y : ℚ), y ∈ xs → xs.foldl min a ≤ y := by
  intro xs
  induction xs with
  | nil => intro a y hy; simp at hy
  | cons x xs ih =>
      intro a y hy
      rcases List.mem_cons.mp hy with h | h
      · subst h
        calc (y :: xs).foldl min a = xs.foldl min (min a y) := rfl
          _ ≤ min a y := foldl_min_le_init _ _
          _ ≤ y := min_le_right _ _
      · exact ih (min a x) y h

lemma foldl_min_mem : ∀ (xs : List ℚ) (a : ℚ), xs.foldl min a = a ∨ xs.foldl min a ∈ xs := by
  intro xs
  induction xs with
  | nil => intro a; exact Or.inl rfl
  | cons x xs ih =>
      intro a
      rcases ih (min a x) with h | h
      · rcases min_choice a x with hc | hc
        · exact Or.inl (by rw [List.foldl_cons, h, hc])
        · exact Or.inr (by rw [List.foldl_cons, h, hc]; exact List.mem_cons_self _ _)
      · exact Or.inr (List.mem_cons_of_mem _ h)

lemma foldl_max_ge_init : ∀ (xs : List ℚ) (a : ℚ), a ≤ xs.foldl max a := by
  intro xs
  induction xs with
  | nil => intro a; exact le_refl a
  | cons x xs ih =>
      intro a
      calc a ≤ max a x := le_max_left _ _
        _ ≤ xs.foldl max (max a x) := ih _
        _ = (x :: xs).foldl max a := rfl

lemma foldl_max_ge_mem : ∀ (xs : List ℚ) (a y : ℚ), y ∈ xs → y ≤ xs.foldl max a := by
  intro xs
  induction xs with
  | nil => intro a y hy; simp at hy
  | cons x xs ih =>
      intro a y hy
      rcases List.mem_cons.mp hy with h | h
      · subst h
        calc y ≤ max a y := le_max_right _ _
          _ ≤ xs.foldl max (max a y) := foldl_max_ge_init _ _
          _ = (y :: xs).foldl max a := rfl
      · exact ih (max a x) y h

lemma foldl_max_mem : ∀ (xs : List ℚ) (a : ℚ), xs.foldl max a = a ∨ xs.foldl max a ∈ xs := by
  intro xs
  induction xs with
  | nil => intro a; exact Or.inl rfl
  | cons x xs ih =>
      intro a
      rcases ih (max a x) with h | h
      · rcases max_choice a x with hc | hc
        · exact Or.inl (by rw [List.foldl_cons, h, hc])
        · exact Or.inr (by rw [List.foldl_cons, h, hc]; exact List.mem_cons_self _ _)
      · exact Or.inr (List.mem_cons_of_mem _ h)

lemma jsMinList_mem (l : List ℚ) (h : l ≠ []) : jsMinList l ∈ l := by
  cases l with
  | nil => exact absurd rfl h
  | cons x xs =>
      rcases foldl_min_mem xs x with hm | hm
      · rw [jsMinList, hm]; exact List.mem_cons_self _ _
      · exact List.mem_cons_of_mem _ (by rw [jsMinList]; exact hm)

lemma jsMinList_le (l : List ℚ) (y : ℚ) (hy : y ∈ l) : jsMinList l ≤ y := by
  cases l with
  | nil => simp at hy
  | cons x xs =>
      rcases List.mem_cons.mp hy with h | h
      · subst h; exact foldl_min_le_init xs y
      · exact foldl_min_le_mem xs x y h

lemma jsMaxList_mem (l : List ℚ) (h : l ≠ []) : jsMaxList l ∈ l := by
  cases l with
  | nil => exact absurd rfl h
  | cons x xs =>
      rcases foldl_max_mem xs x with hm | hm
      · rw [jsMaxList, hm]; exact List.mem_cons_self _ _
      · exact List.mem_cons_of_mem _ (by rw [jsMaxList]; exact hm)

lemma jsMaxList_ge (l : List ℚ) (y : ℚ) (hy : y ∈ l) : y ≤ jsMaxList l := by
  cases l with
  | nil => simp at hy
  | cons x xs =>
      rcases List.mem_cons.mp hy with h | h
      · subst h; exact foldl_max_ge_init xs y
      · exact foldl_max_ge_mem xs x y h

lemma cwa_averages_comp (days : List DailySummary) (h : ¬ days.length = 0)
    (f : NutrientField) (c : RangeComp) :
    ((computeWeeklyAverage days).averages.get f).comp c
      = jsRound ((days.map fun d => (d.totals.get f).comp c).sum / (days.length : ℚ)) := by
  cases f <;> cases c <;>
    simp [computeWeeklyAverage, h, NutritionalTotals.get, NutritionalRange.comp,
      sumBy_eq_sum]

lemma cwa_ranges (days : List DailySummary) (h : ¬ days.length = 0) (f : NutrientField) :
    (computeWeeklyAverage days).daily_ranges.get f
      = { min := jsMinList (days.map fun d => (d.totals.get f).mid)
          max := jsMaxList (days.map fun d => (d.totals.get f).mid) } := by
  cases f <;>
    simp [computeWeeklyAverage, h, DailyRanges.get, NutritionalTotals.get]

/-- C4: computeWeeklyAverage returns all zeroes on the empty list, and on a
non-empty list each average component is the rounded (half up) mean over
the days while each daily range is the least and greatest daily mid value
of that nutrient. -/
theorem computeWeeklyAverage_spec (days : List DailySummary) :
    (days.length = 0 →
      computeWeeklyAverage days
        = { averages := emptyTotals, daily_ranges := zeroDailyRanges }) ∧
    (0 < days.length →
      (∀ f c, ((computeWeeklyAverage days).averages.get f).comp c
          = ((⌊(days.map fun d => (d.totals.get f).comp c).sum / (days.length : ℚ)
                + 1/2⌋ : ℤ) : ℚ)) ∧
      (∀ f, ((computeWeeklyAverage days).daily_ranges.get f).min
              ∈ days.map (fun d => (d.totals.get f).mid) ∧
            (∀ x ∈ days.map (fun d => (d.totals.get f).mid),
              ((computeWeeklyAverage days).daily_ranges.get f).min ≤ x) ∧
            ((computeWeeklyAverage days).daily_ranges.get f).max
              ∈ days.map (fun d => (d.totals.get f).mid) ∧
            (∀ x ∈ days.map (fun d => (d.totals.get f).mid),
              x ≤ ((computeWeeklyAverage days).daily_ranges.get f).max))) := by
  constructor
  · intro h
    simp [computeWeeklyAverage, h]
  · intro h
    have h0 : ¬ days.length = 0 := by omega
    constructor
    · intro f c
      rw [cwa_averages_comp days h0 f c]
      rfl
    · intro f
      have hne : days.map (fun d => (d.totals.get f).mid) ≠ [] := by
        simp only [ne_eq, List.map_eq_nil_iff]
        intro hcon
        rw [hcon] at h0
        exact h0 rfl
      rw [cwa_ranges days h0 f]
      exact ⟨jsMinList_mem _ hne, fun x hx => jsMinList_le _ x hx,
        jsMaxList_mem _ hne, fun x hx => jsMaxList_ge _ x hx⟩

/-- A concrete first day used by witnesses. -/
def sampleDay1 : DailySummary :=
  { date := "2025-01-06"
    totals :=
      { calories := ⟨1000, 1500, 2000⟩, protein := ⟨50, 60, 70⟩
        carbs := ⟨100, 150, 200⟩, fat := ⟨30, 40, 50⟩, fiber := ⟨10, 15, 20⟩ }
    entry_count := 2 }

/-- A concrete second day used by witnesses. -/
def sampleDay2 : DailySummary :=
  { date := "2025-01-07"
    totals :=
      { calories := ⟨1200, 1700, 2200⟩, protein := ⟨55, 65, 75⟩
        carbs := ⟨110, 160, 210⟩, fat := ⟨35, 45, 55⟩, fiber := ⟨12, 17, 22⟩ }
    entry_count := 3 }

/-- A concrete two-day week used by witnesses. -/
def sampleWeek : List DailySummary := [sampleDay1, sampleDay2]

/-- Witness for C4 at the two-day example of the spec: the mean of the two
calorie mid values 1500 and 1700 is reported. -/
theorem computeWeeklyAverage_spec_witness :
    0 < sampleWeek.length ∧
    ((computeWeeklyAverage sampleWeek).averages.get .calories).comp .cmid
      = ((⌊(sampleWeek.map fun d => (d.totals.get .calories).comp .cmid).sum
            / (sampleWeek.length : ℚ) + 1/2⌋ : ℤ) : ℚ) ∧
    ((computeWeeklyAverage sampleWeek).averages.get .calories).comp .cmid = 1600 :=
  ⟨by decide,
   ((computeWeeklyAverage_spec sampleWeek).2 (by decide)).1 .calories .cmid,
   by
     rw [cwa_averages_comp sampleWeek (by decide) .calories .cmid]
     simp only [jsRound, sampleWeek, sampleDay1, sampleDay2, NutritionalTotals.get,
       NutritionalRange.comp, List.map_cons, List.map_nil, List.sum_cons,
       List.sum_nil, List.length_cons, List.length_nil]
     norm_num⟩

lemma jsRound_mono {a b : ℚ} (h : a ≤ b) : jsRound a ≤ jsRound b := by
  unfold jsRound
  exact_mod_cast Int.floor_mono (by linarith)

lemma jsRound_nonneg {a : ℚ} (h : 0 ≤ a) : 0 ≤ jsRound a := by
  unfold jsRound
  have : (0 : ℤ) ≤ ⌊a + 1/2⌋ := Int.le_floor.mpr (by push_cast; linarith)
  exact_mod_cast this

/-- C9: on a non-empty week of valid daily totals the weekly averages again
satisfy the totals invariant, and every daily range has its min at most its
max. -/
theorem computeWeeklyAverage_preserves_validity (days : List DailySummary)
    (hne : days ≠ [])
    (hv : ∀ d ∈ days, validateTotals d.totals = true) :
    validateTotals (computeWeeklyAverage days).averages = true ∧
    ∀ f, ((computeWeeklyAverage days).daily_ranges.get f).min
           ≤ ((computeWeeklyAverage days).daily_ranges.get f).max := by
  have h0 : ¬ days.length = 0 := by
    simpa [List.length_eq_zero] using hne
  have hnpos : (0 : ℚ) < (days.length : ℚ) := by
    have : 0 < days.length := List.length_pos.mpr hne
    exact_mod_cast this
  constructor
  · rw [validateTotals_iff]
    intro f
    rw [validateRange_iff]
    have hmin := cwa_averages_comp days h0 f .cmin
    have hmid := cwa_averages_comp days h0 f .cmid
    have hmax := cwa_averages_comp days h0 f .cmax
    have hrange : ∀ d ∈ days, validateRange (d.totals.get f) = true := fun d hd =>
      (validateTotals_iff d.totals).mp (hv d hd) f
    have hsum_mm : (days.map fun d => (d.totals.get f).comp .cmin).sum
        ≤ (days.map fun d => (d.totals.get f).comp .cmid).sum := by
      apply List.sum_le_sum
      intro d hd
      exact ((validateRange_iff _).mp (hrange d hd)).1
    have hsum_mx : (days.map fun d => (d.totals.get f).comp .cmid).sum
        ≤ (days.map fun d => (d.totals.get f).comp .cmax).sum := by
      apply List.sum_le_sum
      intro d hd
      exact ((validateRange_iff _).mp (hrange d hd)).2.1
    have hsum_nn : 0 ≤ (days.map fun d => (d.totals.get f).comp .cmin).sum := by
      apply List.sum_nonneg
      intro x hx
      obtain ⟨d, hd, rfl⟩ := List.mem_map.mp hx
      exact ((validateRange_iff _).mp (hrange d hd)).2.2
    have eqmin : ((computeWeeklyAverage days).averages.get f).min
        = jsRound ((days.map fun d => (d.totals.get f).comp .cmin).sum / (days.length : ℚ)) :=
      hmin
    have eqmid : ((computeWeeklyAverage days).averages.get f).mid
        = jsRound ((days.map fun d => (d.totals.get f).comp .cmid).sum / (days.length : ℚ)) :=
      hmid
    have eqmax : ((computeWeeklyAverage days).averages.get f).max
        = jsRound ((days.map fun d => (d.totals.get f).comp .cmax).sum / (days.length : ℚ)) :=
      hmax
    refine ⟨?_, ?_, ?_⟩
    · rw [eqmin, eqmid]
      exact jsRound_mono (div_le_div_of_nonneg_right hsum_mm hnpos.le)
    · rw [eqmid, eqmax]
      exact jsRound_mono (div_le_div_of_nonneg_right hsum_mx hnpos.le)
    · rw [eqmin]
      exact jsRound_nonneg (div_nonneg hsum_nn (le_of_lt hnpos))
  · intro f
    rw [cwa_ranges days h0 f]
    have hnemap : days.map (fun d => (d.totals.get f).mid) ≠ [] := by
      simp only [ne_eq, List.map_eq_nil_iff]
      exact hne
    obtain ⟨y, hy⟩ : ∃ y, y ∈ days.map fun d => (d.totals.get f).mid := by
      cases hl : days.map fun d => (d.totals.get f).mid with
      | nil => exact absurd hl hnemap
      | cons a as => exact ⟨a, List.mem_cons_self _ _⟩
    exact le_trans (jsMinList_le _ y hy) (jsMaxList_ge _ y hy)

/-- Witness for C9 at the concrete two-day week. -/
theorem computeWeeklyAverage_preserves_validity_witness :
    validateTotals (computeWeeklyAverage sampleWeek).averages = true ∧
    ((computeWeeklyAverage sampleWeek).daily_ranges.get .calories).min
      ≤ ((computeWeeklyAverage sampleWeek).daily_ranges.get .calories).max :=
  have h := computeWeeklyAverage_preserves_validity sampleWeek
    (by simp [sampleWeek]) (by decide)
  ⟨h.1, h.2 .calories⟩

/-!  Lemmas about the response validator. -/

lemma getField_some_obj {j : Json} {k : String} {v : Json}
    (h : j.getField k = some v) : isObjectTyped j = true := by
  cases j <;> first | rfl | simp [Json.getField] at h

lemma validateItems_error (l : List Json)
    (h : ∃ b ∈ l, isValidParsedItem b = false) :
    validateItems l = .error "LLM response contains invalid item" := by
  induction l with
  | nil => simp at h
  | cons x xs ih =>
      obtain ⟨b, hb, hbad⟩ := h
      by_cases hx : isValidParsedItem x
      · have hbx : b ∈ xs := by
          rcases List.mem_cons.mp hb with h1 | h1
          · subst h1; rw [hx] at hbad; exact absurd hbad (by simp)
          · exact h1
        have := ih ⟨b, hbx, hbad⟩
        simp [validateItems, hx, this]
      · simp [validateItems, hx]

lemma validateItems_ok (l : List Json)
    (h : ∀ i ∈ l, isValidParsedItem i = true) :
    validateItems l = .ok l := by
  induction l with
  | nil => rfl
  | cons x xs ih =>
      have hx : isValidParsedItem x = true := h x (List.mem_cons_self _ _)
      have hxs := ih fun i hi => h i (List.mem_cons_of_mem _ hi)
      simp [validateItems, hx, hxs]

/-- C5: any invalid element of the items array makes the validator raise,
so no element at all is accepted. -/
theorem validator_all_or_nothing (parsed : Json) (l : List Json)
    (hitems : parsed.getField "items" = some (Json.arr l))
    (hbad : ∃ b ∈ l, isValidParsedItem b = false) :
    validatePayload parsed = .error "LLM response contains invalid item" := by
  unfold validatePayload
  rw [if_pos (getField_some_obj hitems), hitems]
  exact validateItems_error l hbad

/-- C6: when every element of the items array is valid the validator
returns exactly that list, in order and unmodified. -/
theorem validator_preserves_valid_items (parsed : Json) (l : List Json)
    (hitems : parsed.getField "items" = some (Json.arr l))
    (hall : ∀ i ∈ l, isValidParsedItem i = true) :
    validatePayload parsed = .ok l := by
  unfold validatePayload
  rw [if_pos (getField_some_obj hitems), hitems]
  exact validateItems_ok l hall

/-- A JSON range object with the three numeric components. -/
def numRangeJson (a b c : ℚ) : Json :=
  .obj [("min", Json.num a), ("mid", Json.num b), ("max", Json.num c)]

/-- A concrete fully valid parsed item. -/
def validItemJson : Json :=
  .obj [("name", Json.str "banana"),
        ("calories", numRangeJson 90 105 120),
        ("protein", numRangeJson 1 1 2),
        ("carbs", numRangeJson 23 27 31),
        ("fat", numRangeJson 0 0 1),
        ("fiber", numRangeJson 2 3 4),
        ("confidence", Json.str "high")]

/-- A concrete invalid parsed item: every field but the name is missing. -/
def invalidItemJson : Json :=
  .obj [("name", Json.str "mystery")]

/-- Witness for C5: a batch holding one valid and one invalid item is
rejected whole. -/
theorem validator_all_or_nothing_witness :
    validatePayload (Json.obj [("items", Json.arr [validItemJson, invalidItemJson])])
      = .error "LLM response contains invalid item" :=
  validator_all_or_nothing _ [validItemJson, invalidItemJson] rfl
    ⟨invalidItemJson, List.mem_cons_of_mem _ (List.mem_cons_self _ _), rfl⟩

/-- Witness for C6: a batch of valid items is returned unchanged. -/
theorem validator_preserves_valid_items_witness :
    validatePayload (Json.obj [("items", Json.arr [validItemJson])])
      = .ok [validItemJson] :=
  validator_preserves_valid_items _ [validItemJson] rfl
    (fun i hi => by
      rcases List.mem_cons.mp hi with h | h
      · subst h; rfl
      · simp at h)

/-- A concrete item whose name is the empty string and whose other fields
are all well formed. -/
def emptyNameItemJson : Json :=
  .obj [("name", Json.str ""),
        ("calories", numRangeJson 90 105 120),
        ("protein", numRangeJson 1 1 2),
        ("carbs", numRangeJson 23 27 31),
        ("fat", numRangeJson 0 0 1),
        ("fiber", numRangeJson 2 3 4),
        ("confidence", Json.str "high")]

/-- Counterexample for C1: the item validator accepts an item whose name is
the empty string, because the source only checks that the name is typed as
a string. -/
theorem isValidParsedItem_accepts_empty_name :
    emptyNameItemJson.getField "name" = some (Json.str "") ∧
    isValidParsedItem emptyNameItemJson = true :=
  ⟨rfl, rfl⟩

lemma nameIsString_iff (item : Json) :
    nameIsString item = true ↔ ∃ s, item.getField "name" = some (Json.str s) := by
  cases h : item.getField "name" with
  | none => simp [nameIsString, h]
  | some v => cases v <;> simp [nameIsString, h]

lemma confidenceOk_iff (item : Json) :
    confidenceOk item = true ↔
      (item.getField "confidence" = some (Json.str "low") ∨
       item.getField "confidence" = some (Json.str "medium") ∨
       item.getField "confidence" = some (Json.str "high")) := by
  cases h : item.getField "confidence" with
  | none => simp [confidenceOk, h]
  | some v =>
      cases v with
      | str s => simp only [confidenceOk, h]; simp; tauto
      | null => simp [confidenceOk, h]
      | bool b => simp [confidenceOk, h]
      | num q => simp [confidenceOk, h]
      | arr xs => simp [confidenceOk, h]
      | obj fs => simp [confidenceOk, h]

lemma numField_iff (j : Json) (k : String) :
    numField j k = true ↔ ∃ q, j.getField k = some (Json.num q) := by
  cases h : j.getField k with
  | none => simp [numField, h]
  | some v => cases v <;> simp [numField, h]

lemma rangeFieldOk_iff (item : Json) (f : String) :
    rangeFieldOk item f = true ↔
      ∃ rfs, item.getField f = some (Json.obj rfs) ∧
        (∃ a, (Json.obj rfs).getField "min" = some (Json.num a)) ∧
        (∃ b, (Json.obj rfs).getField "mid" = some (Json.num b)) ∧
        (∃ c, (Json.obj rfs).getField "max" = some (Json.num c)) := by
  cases h : item.getField f with
  | none => simp [rangeFieldOk, h]
  | some range =>
      cases range with
      | null => simp [rangeFieldOk, h, isTruthy, isObjectTyped]
      | bool b => cases b <;> simp [rangeFieldOk, h, isTruthy, isObjectTyped]
      | num q => simp [rangeFieldOk, h, isTruthy, isObjectTyped]
      | str s => simp [rangeFieldOk, h, isTruthy, isObjectTyped]
      | arr xs =>
          unfold rangeFieldOk
          rw [h]
          simp [isTruthy, isObjectTyped, numField, Json.getField]
      | obj rfs =>
          simp [rangeFieldOk, h, isTruthy, isObjectTyped, numField_iff, and_assoc]

/-- C1 amended: an item is accepted exactly when it is a JSON object whose
name is typed as a string, possibly empty, whose confidence is one of the
three literals, and whose five nutrient fields are objects with numeric
min, mid and max; non-emptiness of the name is not required. -/
theorem isValidParsedItem_characterization (item : Json) :
    isValidParsedItem item = true ↔
      (∃ fields, item = Json.obj fields) ∧
      (∃ s, item.getField "name" = some (Json.str s)) ∧
      (item.getField "confidence" = some (Json.str "low") ∨
       item.getField "confidence" = some (Json.str "medium") ∨
       item.getField "confidence" = some (Json.str "high")) ∧
      ∀ f ∈ rangeFields, ∃ rfs, item.getField f = some (Json.obj rfs) ∧
        (∃ a, (Json.obj rfs).getField "min" = some (Json.num a)) ∧
        (∃ b, (Json.obj rfs).getField "mid" = some (Json.num b)) ∧
        (∃ c, (Json.obj rfs).getField "max" = some (Json.num c)) := by
  unfold isValidParsedItem
  simp only [Bool.and_eq_true, List.all_eq_true]
  constructor
  · rintro ⟨⟨⟨hobj, hname⟩, hconf⟩, hall⟩
    obtain ⟨s, hs⟩ := (nameIsString_iff item).mp hname
    have hfields : ∃ fields, item = Json.obj fields := by
      cases item with
      | obj fs => exact ⟨fs, rfl⟩
      | arr xs => simp [Json.getField] at hs
      | null => simp [isObjectTyped] at hobj
      | bool b => simp [isObjectTyped] at hobj
      | num q => simp [isObjectTyped] at hobj
      | str s2 => simp [isObjectTyped] at hobj
    exact ⟨hfields, ⟨s, hs⟩, (confidenceOk_iff item).mp hconf,
      fun f hf => (rangeFieldOk_iff item f).mp (hall f hf)⟩
  · rintro ⟨⟨fields, rfl⟩, hname, hconf, hall⟩
    exact ⟨⟨⟨rfl, (nameIsString_iff _).mpr hname⟩, (confidenceOk_iff _).mpr hconf⟩,
      fun f hf => (rangeFieldOk_iff _ f).mpr (hall f hf)⟩
